import Mathlib

/-!
# Verification of bmad-federated-knowledge

Shallow embedding of the repository's core logic:

* `src/managers/git-manager.js` — `GitManager` (`syncRepo`, `shouldSync`,
  `forceSync`, `cleanCache`): repository sync with an in-memory lock map and
  sync-timestamp map.
* `src/core/knowledge-merger.js` — `KnowledgeMerger`
  (`mergeKnowledgeSources`, `handleConflict`, `handleDataConflict`,
  `processTemplates` / `processWorkflows` / `processData` / `processConfigs`).
* `src/resolvers/federated-dependency-resolver.js` —
  `FederatedDependencyResolver` (`resolveKnowledge` source-list construction,
  `removeRepository`).

JavaScript `Map`s are modelled as association lists preserving insertion
order (`mapGet` returns the first binding, `mapSet` overwrites in place or
appends, `mapDelete` removes the binding).  Time stamps (`Date.now()`) are
`Int` milliseconds.  Filesystem and git effects are supplied as explicit
environment parameters describing the outcome the external world would
produce, so each method becomes a pure state-transition function.
-/

namespace BmadFed

/-! ## Association-list model of JavaScript `Map` / plain objects -/

/-- First binding for `k`, like `Map.prototype.get`. -/
def mapGet {α : Type} (m : List (String × α)) (k : String) : Option α :=
  match m.find? (fun p => p.1 == k) with
  | some p => some p.2
  | none => none

/-- `Map.prototype.has`. -/
def mapHas {α : Type} (m : List (String × α)) (k : String) : Bool :=
  m.any (fun p => p.1 == k)

/-- `Map.prototype.set`: overwrite in place if the key is bound, else append
(JS maps preserve insertion order). -/
def mapSet {α : Type} (m : List (String × α)) (k : String) (v : α) :
    List (String × α) :=
  if mapHas m k then m.map (fun p => if p.1 == k then (k, v) else p)
  else m ++ [(k, v)]

/-- `Map.prototype.delete`. -/
def mapDelete {α : Type} (m : List (String × α)) (k : String) :
    List (String × α) :=
  m.filter (fun p => !(p.1 == k))

/-- Keys in insertion order. -/
def mapKeys {α : Type} (m : List (String × α)) : List String :=
  m.map Prod.fst

/-- `String.prototype.includes` (substring test). -/
def strIncludes (s sub : String) : Bool :=
  decide (sub.toList <:+: s.toList)

/-- `String.prototype.split` with a single-character separator, e.g.
`"a:b:c".split(':') = ["a", "b", "c"]`; splitting the empty string yields
`[""]`, exactly as in JavaScript. -/
def jsSplitAux (c : Char) : List Char → List Char → List String
  | [], acc => [String.mk acc.reverse]
  | x :: xs, acc =>
    if x = c then String.mk acc.reverse :: jsSplitAux c xs []
    else jsSplitAux c xs (x :: acc)

/-- See `jsSplitAux`. -/
def jsSplit (s : String) (c : Char) : List String :=
  jsSplitAux c s.toList []

/-! ## GitManager state (`git-manager.js` lines 10–23) -/

/-- The two in-memory maps of `GitManager`: `this.lockFiles` (lock key ↦
`Date.now()` at acquisition) and `this.syncTimestamps` (lock key ↦ epoch
millis of last successful sync). -/
structure GMState where
  lockFiles : List (String × Int)
  syncTimestamps : List (String × Int)
  deriving Repr, DecidableEq

/-- `` `${repoUrl}:${localPath}` `` (lines 48, 218, 338). -/
def lockKeyOf (repoUrl localPath : String) : String :=
  repoUrl ++ ":" ++ localPath

/-- Git operation names reported in sync results. -/
inductive GitOp where
  | clone
  | pull
  | resetAndPull
  deriving Repr, DecidableEq

/-- Outcomes the external world (filesystem + git) would produce during one
`syncRepo` call: whether the cache directory exists, and whether each git
command the code may issue would throw (`some msg`) or succeed (`none`). -/
structure GitEnv where
  pathExists : Bool
  cloneErr : Option String
  pullErr : Option String
  resetPullErr : Option String
  deriving Repr, DecidableEq

/-- The three result statuses of `syncRepo` (lines 54, 81–87, 91–96). -/
inductive SyncResult where
  | success (op : GitOp)
  | inProgress
  | error (msg : String)
  deriving Repr, DecidableEq

/-- `cloneRepository` (lines 112–136): a single `git clone`; throws iff the
environment says so. -/
def cloneRepository (env : GitEnv) : Except String GitOp :=
  match env.cloneErr with
  | none => Except.ok GitOp.clone
  | some m => Except.error m

/-- `pullRepository` (lines 145–181): `git pull`; on failure, hard reset and
pull again (`reset_and_pull`), which may itself throw. -/
def pullRepository (env : GitEnv) : Except String GitOp :=
  match env.pullErr with
  | none => Except.ok GitOp.pull
  | some _ =>
    match env.resetPullErr with
    | none => Except.ok GitOp.resetAndPull
    | some m => Except.error m

/-- Result of one `syncRepo` call: the final manager state, the returned
result, and the list of git operations actually attempted (the clone/pull
I/O performed). -/
structure SyncOutcome where
  state : GMState
  result : SyncResult
  gitOps : List GitOp
  deriving Repr, DecidableEq

/-- `GitManager.syncRepo` (lines 47–101).  JavaScript is single-threaded and
there is no `await` between the `lockFiles.has` check and `lockFiles.set`,
so the check-and-set is atomic; a call that starts while the lock for the
same key is held is exactly a call on a state where `lockFiles` contains the
key.  The `finally` block always deletes the lock.  `now` is `Date.now()`. -/
def syncRepo (st : GMState) (repoUrl localPath : String) (now : Int)
    (env : GitEnv) : SyncOutcome :=
  let lockKey := lockKeyOf repoUrl localPath
  if mapHas st.lockFiles lockKey then
    -- the early `return {status: 'in_progress'}` sits inside the `try`, so
    -- the `finally` block still runs and deletes the lock entry — the one
    -- set by the in-flight call, not by this one
    { state := { st with lockFiles := mapDelete st.lockFiles lockKey },
      result := SyncResult.inProgress, gitOps := [] }
  else
    let st1 : GMState := { st with lockFiles := mapSet st.lockFiles lockKey now }
    let attempted : List GitOp :=
      if env.pathExists then
        match env.pullErr with
        | none => [GitOp.pull]
        | some _ => [GitOp.pull, GitOp.resetAndPull]
      else [GitOp.clone]
    let body : Except String GitOp :=
      if env.pathExists then pullRepository env else cloneRepository env
    let afterBody : GMState × SyncResult :=
      match body with
      | Except.ok op =>
        ({ st1 with syncTimestamps := mapSet st1.syncTimestamps lockKey now },
         SyncResult.success op)
      | Except.error m => (st1, SyncResult.error m)
    { state := { afterBody.1 with
                  lockFiles := mapDelete afterBody.1.lockFiles lockKey },
      result := afterBody.2,
      gitOps := attempted }

/-- The `sync_policy` strings accepted by the `switch` in `shouldSync`;
`other` stands for any unmatched string (the `default` arm). -/
inductive SyncPolicy where
  | daily
  | weekly
  | onDemand
  | manual
  | other
  deriving Repr, DecidableEq

/-- `GitManager.shouldSync` (lines 217–240): policy decision from the last
recorded sync timestamp for `` `${config.repo}:${config.local_cache}` ``. -/
def shouldSync (st : GMState) (repo localCache : String)
    (policy : SyncPolicy) (now : Int) : Bool :=
  let lockKey := lockKeyOf repo localCache
  match mapGet st.syncTimestamps lockKey with
  | none => true
  | some lastSync =>
    -- `if (!lastSync)` is a falsy test: a *stored* epoch value of 0 also
    -- takes the never-synced branch
    if lastSync = 0 then true
    else
      let timeDiff := now - lastSync
      match policy with
      | SyncPolicy.daily => decide (timeDiff > 24 * 60 * 60 * 1000)
      | SyncPolicy.weekly => decide (timeDiff > 7 * 24 * 60 * 60 * 1000)
      | _ => false

/-- `GitManager.forceSync` (lines 337–341): drop the timestamp, then sync. -/
def forceSync (st : GMState) (repoUrl localPath : String) (now : Int)
    (env : GitEnv) : SyncOutcome :=
  let lockKey := lockKeyOf repoUrl localPath
  syncRepo { st with syncTimestamps := mapDelete st.syncTimestamps lockKey }
    repoUrl localPath now env

/-- `GitManager.cleanCache(repoName)` for a specific repository (lines
297–307): find the first `syncTimestamps` key containing `repoName`;
destructure `const [, localPath] = lockKey.split(':')`, i.e. take element 1
of the split; `fs.remove(path.resolve(localPath))`; delete the map entry.
Returns the new state and the (pre-`resolve`) path handed to `fs.remove`,
`none` when no key matched. -/
def cleanCacheSpecific (st : GMState) (repoName : String) :
    GMState × Option String :=
  match st.syncTimestamps.find? (fun p => strIncludes p.1 repoName) with
  | some p =>
    ({ st with syncTimestamps := mapDelete st.syncTimestamps p.1 },
     some ((jsSplit p.1 ':').getD 1 ""))
  | none => (st, none)

/-! ## FederatedDependencyResolver: repository registry
(`federated-dependency-resolver.js`) -/

/-- A repository descriptor from the configuration document. -/
structure RepoConfig where
  repo : String
  branch : String
  localCache : String
  priority : Int
  deriving Repr, DecidableEq

/-- The resolver's registry (`this.federatedRepos`), the persisted
configuration document's `federated_knowledge` section, and the shared
`GitManager` state. -/
structure ResolverState where
  federatedRepos : List (String × RepoConfig)
  configFederatedKnowledge : List (String × RepoConfig)
  git : GMState
  deriving Repr, DecidableEq

/-- `FederatedDependencyResolver.removeRepository` (lines 336–360): throws
(`none`) when the name is unknown; otherwise deletes the registry entry,
deletes the key from the configuration document (then saved), and calls
`gitManager.cleanCache(name)`.  Also returns the path `cleanCache` handed to
`fs.remove`, if any. -/
def removeRepository (rs : ResolverState) (name : String) :
    Option (ResolverState × Option String) :=
  if mapHas rs.federatedRepos name then
    let rs1 : ResolverState :=
      { rs with
        federatedRepos := mapDelete rs.federatedRepos name,
        configFederatedKnowledge := mapDelete rs.configFederatedKnowledge name }
    let cleaned := cleanCacheSpecific rs1.git name
    some ({ rs1 with git := cleaned.1 }, cleaned.2)
  else none

/-- The spec's description of `shouldSync` as a pure function of the policy
and the elapsed time since the last recorded sync (`none` = never synced),
with the boundary amended to the strict comparison the code performs
(`timeDiff > 24h`, `timeDiff > 7d`). -/
def shouldSyncPure (policy : SyncPolicy) (elapsed : Option Int) : Bool :=
  match elapsed with
  | none => true
  | some e =>
    match policy with
    | SyncPolicy.daily => decide (e > 24 * 60 * 60 * 1000)
    | SyncPolicy.weekly => decide (e > 7 * 24 * 60 * 60 * 1000)
    | _ => false

/-- The elapsed time the policy evaluator sees for a key: `none` when no
sync is recorded — or when the recorded epoch value is 0, which the code's
falsy `if (!lastSync)` check treats as never synced. -/
def elapsedSinceLastSync (ts : List (String × Int)) (key : String)
    (now : Int) : Option Int :=
  match mapGet ts key with
  | none => none
  | some lastSync => if lastSync = 0 then none else some (now - lastSync)

/-! ## KnowledgeMerger: content model (`knowledge-merger.js`) -/

/-- A structured value as produced by `JSON.parse` / `yaml.parse`. -/
inductive Parsed where
  | str (s : String)
  | num (n : Int)
  | boolVal (b : Bool)
  | nullVal
  | arr (elems : List Parsed)
  | map (fields : List (String × Parsed))
  deriving Repr

/-- lodash `_.isObject`: `true` for plain objects *and arrays*, `false` for
primitives and `null`. -/
def isObject : Parsed → Bool
  | Parsed.arr _ => true
  | Parsed.map _ => true
  | _ => false

/-- A file's raw text, represented by its parse outcome (`JSON.parse` and
`yaml.parse` are external libraries): the JSON serialization of a value,
YAML text denoting a value, or plain text that parses as neither — for
which the parse chain returns the string itself. -/
inductive Text where
  | jsonOf (v : Parsed)
  | yamlOf (v : Parsed)
  | plain (s : String)
  deriving Repr

/-- `KnowledgeMerger.parseContent` (lines 588–605): try `JSON.parse`, then
`yaml.parse`, else return the content string unchanged. -/
def parseContent : Text → Parsed
  | Text.jsonOf v => v
  | Text.yamlOf v => v
  | Text.plain s => Parsed.str s

/-- `Array.prototype.concat`: concatenates an array argument, appends any
other argument. -/
def jsConcat (a : List Parsed) (v : Parsed) : List Parsed :=
  match v with
  | Parsed.arr b => a ++ b
  | x => a ++ [x]

/-- JS property read `o[k]` on the collections the lodash merge iterates
(string keys; on an array a key that is a numeral reads the element). -/
def objGet (o : Parsed) (k : String) : Option Parsed :=
  match o with
  | Parsed.map fs => mapGet fs k
  | Parsed.arr xs =>
    match k.toNat? with
    | some i => xs[i]?
    | none => none
  | _ => none

/-- `xs[i] = v`; JS pads a sparse array, whose holes `JSON.stringify`
serializes as `null`. -/
def arrSet (xs : List Parsed) (i : Nat) (v : Parsed) : List Parsed :=
  if i < xs.length then xs.set i v
  else xs ++ List.replicate (i - xs.length) Parsed.nullVal ++ [v]

/-- JS property write `o[k] = v`, observed through `JSON.stringify`: a
named (non-index) property set on an array, or any property set on a
primitive, is invisible in the serialized result. -/
def objSet (o : Parsed) (k : String) (v : Parsed) : Parsed :=
  match o with
  | Parsed.map fs => Parsed.map (mapSet fs k v)
  | Parsed.arr xs =>
    match k.toNat? with
    | some i => Parsed.arr (arrSet xs i v)
    | none => Parsed.arr xs
  | prim => prim

mutual
/-- lodash `_.mergeWith(obj, src, customizer)` with the customizer of
`handleDataConflict` (lines 517–521): when the existing side of a key is an
array it is concatenated with the incoming value; otherwise two nested
objects merge recursively and any other value is overwritten by the
source's.  A primitive source has no enumerable keys, so `obj` is returned
unchanged. -/
def mergeWith (o s : Parsed) : Parsed :=
  match s with
  | Parsed.map fs => mergeFieldList o fs
  | Parsed.arr xs => mergeElemList o 0 xs
  | _ => o
termination_by sizeOf s

/-- Merge the source object's fields into `o`, left to right. -/
def mergeFieldList (o : Parsed) : List (String × Parsed) → Parsed
  | [] => o
  | (k, sv) :: rest =>
    let nv :=
      match objGet o k with
      | some (Parsed.arr a) => Parsed.arr (jsConcat a sv)
      | some ov => if isObject ov && isObject sv then mergeWith ov sv else sv
      | none => sv
    mergeFieldList (objSet o k nv) rest
termination_by l => sizeOf l

/-- Merge the source array's elements into `o` by index key. -/
def mergeElemList (o : Parsed) (i : Nat) : List Parsed → Parsed
  | [] => o
  | sv :: rest =>
    let nv :=
      match objGet o (toString i) with
      | some (Parsed.arr a) => Parsed.arr (jsConcat a sv)
      | some ov => if isObject ov && isObject sv then mergeWith ov sv else sv
      | none => sv
    mergeElemList (objSet o (toString i) nv) (i + 1) rest
termination_by l => sizeOf l
end

/-! ## KnowledgeMerger: entries, conflicts, category processing -/

/-- The `(source.repo || source.source, source.priority)` pair the merger
records on entries and conflicts. -/
structure SourceMeta where
  name : String
  priority : Int
  deriving Repr, DecidableEq

/-- An entry of a category map of the merged tree: `{...file, source,
priority}` plus the `merged` / `sources` fields `handleDataConflict` may
add (absent on a fresh entry).  The file's `path`/`name`/`extension`/`size`
metadata is determined by the item and omitted. -/
structure Entry where
  content : Text
  source : String
  priority : Int
  merged : Bool
  sources : Option (List String)
  deriving Repr

/-- A fresh category-map entry `{...item, source: source.repo ||
source.source, priority: source.priority}`. -/
def mkEntry (content : Text) (src : SourceMeta) : Entry :=
  ⟨content, src.name, src.priority, false, none⟩

/-- One record of the conflict ledger.  The records built by
`handleConflict` carry `existing`/`incoming` `(source, priority)` summaries;
the record built by a successful data merge does not (lines 527–533).
`timestamp` fields are omitted. -/
structure ConflictRecord where
  ctype : String
  key : String
  existing : Option (String × Int)
  incoming : Option (String × Int)
  resolution : String
  reason : String
  deriving Repr, DecidableEq

/-- The `conflictResolution` options (constructor `other` covers any
unrecognised string, the `default` arm). -/
inductive Strategy where
  | priority
  | localWins
  | manual
  | other
  deriving Repr, DecidableEq

/-- `KnowledgeMerger.handleConflict` (lines 450–499). -/
def handleConflict (strat : Strategy) (ctype key : String) (existing : Entry)
    (src : SourceMeta) : ConflictRecord :=
  match strat with
  | Strategy.priority =>
    if src.priority > existing.priority then
      ⟨ctype, key, some (existing.source, existing.priority),
       some (src.name, src.priority), "replace", "Higher priority source"⟩
    else
      ⟨ctype, key, some (existing.source, existing.priority),
       some (src.name, src.priority), "keep", "Lower priority source"⟩
  | Strategy.localWins =>
    if existing.source = "local" then
      ⟨ctype, key, some (existing.source, existing.priority),
       some (src.name, src.priority), "keep", "Local source takes precedence"⟩
    else
      ⟨ctype, key, some (existing.source, existing.priority),
       some (src.name, src.priority), "replace", "No local source conflict"⟩
  | Strategy.manual =>
    ⟨ctype, key, some (existing.source, existing.priority),
     some (src.name, src.priority), "manual", "Manual resolution required"⟩
  | Strategy.other =>
    ⟨ctype, key, some (existing.source, existing.priority),
     some (src.name, src.priority), "keep", "Default strategy"⟩

/-- `KnowledgeMerger.handleDataConflict` (lines 509–541): when both
contents parse to lodash objects, mutate the existing entry in place —
`content` becomes `JSON.stringify` of the deep merge, `merged` is set and
`sources` records the pair of source names — and report resolution
`merged`; otherwise fall back to `handleConflict`, leaving the entry
untouched. -/
def handleDataConflict (strat : Strategy) (key : String) (existing : Entry)
    (incomingContent : Text) (src : SourceMeta) : Entry × ConflictRecord :=
  let e := parseContent existing.content
  let i := parseContent incomingContent
  if isObject e && isObject i then
    ({ existing with
        content := Text.jsonOf (mergeWith e i),
        merged := true,
        sources := some [existing.source, src.name] },
     ⟨"data", key, none, none, "merged", "Successfully merged data structures"⟩)
  else
    (existing, handleConflict strat "data" key existing src)

/-- `KnowledgeMerger.normalizeKey` (lines 612–614): backslashes to slashes,
then lower-case (ASCII, as in the file names at hand). -/
def normalizeKey (key : String) : String :=
  String.mk ((key.toList.map (fun c => if c = '\\' then '/' else c)).map
    Char.toLower)

/-- One item of `processTemplates` / `processWorkflows` / `processConfigs`
(lines 253–283 etc.): on a key collision run `handleConflict`, replace the
entry iff the resolution is `replace`, and append the record; otherwise
insert a fresh entry. -/
def stdItemStep (strat : Strategy) (ctype : String) (src : SourceMeta)
    (acc : List (String × Entry) × List ConflictRecord)
    (item : String × Text) : List (String × Entry) × List ConflictRecord :=
  let key := normalizeKey item.1
  match mapGet acc.1 key with
  | some existing =>
    let c := handleConflict strat ctype key existing src
    (if c.resolution = "replace" then mapSet acc.1 key (mkEntry item.2 src)
     else acc.1,
     acc.2 ++ [c])
  | none => (mapSet acc.1 key (mkEntry item.2 src), acc.2)

/-- Fold `stdItemStep` over a category's scanned items. -/
def processStd (strat : Strategy) (ctype : String) (src : SourceMeta)
    (items : List (String × Text))
    (acc : List (String × Entry) × List ConflictRecord) :
    List (String × Entry) × List ConflictRecord :=
  items.foldl (stdItemStep strat ctype src) acc

/-- One item of `processData` (lines 356–377): on a key collision the
entry object is handed to `handleDataConflict`, which may mutate it in
place; the resolution — even a `replace` from the fallback — never swaps
the entry for the incoming one.  The record is always appended. -/
def dataItemStep (strat : Strategy) (src : SourceMeta)
    (acc : List (String × Entry) × List ConflictRecord)
    (item : String × Text) : List (String × Entry) × List ConflictRecord :=
  let key := normalizeKey item.1
  match mapGet acc.1 key with
  | some existing =>
    let r := handleDataConflict strat key existing item.2 src
    (mapSet acc.1 key r.1, acc.2 ++ [r.2])
  | none => (mapSet acc.1 key (mkEntry item.2 src), acc.2)

/-- Fold `dataItemStep` over the `core-data` items. -/
def processData (strat : Strategy) (src : SourceMeta)
    (items : List (String × Text))
    (acc : List (String × Entry) × List ConflictRecord) :
    List (String × Entry) × List ConflictRecord :=
  items.foldl (dataItemStep strat src) acc

/-! ## KnowledgeMerger: whole-merge fold -/

/-- A knowledge-source descriptor as built by `resolveKnowledge`:
`{path, priority, source, repo}` (`repo` absent for local sources). -/
structure KSource where
  path : String
  priority : Int
  origin : String
  repo : Option String
  deriving Repr, DecidableEq

/-- `source.repo || source.source`. -/
def srcName (s : KSource) : String := s.repo.getD s.origin

/-- The metadata recorded for a source. -/
def metaOf (s : KSource) : SourceMeta := ⟨srcName s, s.priority⟩

/-- What the filesystem holds at one source path: whether the directory
exists, and the scanned relative-path/content pairs of its `templates/`,
`workflows/` and `core-data/` subdirectories and its top-level config
files. -/
structure DirContents where
  present : Bool
  templates : List (String × Text)
  workflows : List (String × Text)
  dataFiles : List (String × Text)
  configs : List (String × Text)
  deriving Repr

/-- The merged knowledge tree (`mergeKnowledgeSources` lines 166–178):
category maps are insertion-ordered objects, `conflicts` is the ledger,
`sourcesMeta` the processed-source list (its `path`/`processedAt` metadata
omitted). -/
structure Merged where
  sourcesMeta : List SourceMeta
  templates : List (String × Entry)
  workflows : List (String × Entry)
  dataEntries : List (String × Entry)
  configs : List (String × Entry)
  conflicts : List ConflictRecord
  deriving Repr

/-- The empty merged tree. -/
def initMerged : Merged := ⟨[], [], [], [], [], []⟩

/-- `KnowledgeMerger.processKnowledgeSource` (lines 204–235): skip a source
whose path does not exist; otherwise record its metadata and process
templates, workflows, data and configs in that order. -/
def processKnowledgeSource (fsys : String → DirContents) (strat : Strategy)
    (m : Merged) (s : KSource) : Merged :=
  let dir := fsys s.path
  if dir.present then
    let meta := metaOf s
    let tm := processStd strat "template" meta dir.templates
      (m.templates, m.conflicts)
    let wf := processStd strat "workflow" meta dir.workflows
      (m.workflows, tm.2)
    let da := processData strat meta dir.dataFiles (m.dataEntries, wf.2)
    let cf := processStd strat "config" meta dir.configs (m.configs, da.2)
    { sourcesMeta := m.sourcesMeta ++ [meta],
      templates := tm.1,
      workflows := wf.1,
      dataEntries := da.1,
      configs := cf.1,
      conflicts := cf.2 }
  else m

/-- `knowledgeSources.sort((a, b) => b.priority - a.priority)`: JavaScript's
sort is stable, so this is the stable descending-priority reordering; a
stable insertion step places a later element after earlier elements of
equal priority. -/
def insertDesc (x : KSource) : List KSource → List KSource
  | [] => [x]
  | y :: ys => if x.priority > y.priority then x :: y :: ys
               else y :: insertDesc x ys

/-- Stable sort by descending priority (see `insertDesc`). -/
def sortByPriorityDesc (l : List KSource) : List KSource :=
  l.foldl (fun acc x => insertDesc x acc) []

/-- `KnowledgeMerger.mergeKnowledgeSources` (lines 159–195): sort sources
by priority, highest first, then fold them into the empty tree. -/
def mergeKnowledgeSources (fsys : String → DirContents) (strat : Strategy)
    (sources : List KSource) : Merged :=
  (sortByPriorityDesc sources).foldl (processKnowledgeSource fsys strat)
    initMerged

/-! ## FederatedDependencyResolver: candidate source list -/

/-- `resolveKnowledge` steps 1–2 (lines 114–147): every registered
federated repository contributes `{path: local_cache, priority, source:
"federated", repo: name}` (sync failures are caught and do not drop the
source), then every configured local knowledge directory that exists on
disk is appended with `{priority: 999, source: "local"}`. -/
def buildKnowledgeSources (federated : List (String × RepoConfig))
    (localKnowledge : List (String × String))
    (dirPresent : String → Bool) : List KSource :=
  federated.map (fun p =>
    { path := p.2.localCache, priority := p.2.priority,
      origin := "federated", repo := some p.1 }) ++
  (localKnowledge.filter (fun p => dirPresent p.2)).map (fun p =>
    { path := p.2, priority := 999, origin := "local", repo := none })

/-- `resolveKnowledge` step 3: merge the candidate sources. -/
def resolveMerged (fsys : String → DirContents) (strat : Strategy)
    (federated : List (String × RepoConfig))
    (localKnowledge : List (String × String)) : Merged :=
  mergeKnowledgeSources fsys strat
    (buildKnowledgeSources federated localKnowledge
      (fun p => (fsys p).present))

/-! ## Collision counting (for the ledger-length invariant) -/

/-- Key-only mirror of one category item: an item whose normalized key was
already seen is one collision; otherwise its key is appended.  No strategy,
priority or resolution enters. -/
def keyStep (acc : List String × Nat) (item : String × Text) :
    List String × Nat :=
  let key := normalizeKey item.1
  if acc.1.contains key then (acc.1, acc.2 + 1) else (acc.1 ++ [key], acc.2)

/-- Seen keys per category plus the running collision count. -/
structure SeenKeys where
  t : List String
  w : List String
  d : List String
  c : List String
  count : Nat
  deriving Repr, DecidableEq

/-- Key-only mirror of `processKnowledgeSource`. -/
def seenSource (fsys : String → DirContents) (acc : SeenKeys) (s : KSource) :
    SeenKeys :=
  let dir := fsys s.path
  if dir.present then
    let tm := dir.templates.foldl keyStep (acc.t, acc.count)
    let wf := dir.workflows.foldl keyStep (acc.w, tm.2)
    let da := dir.dataFiles.foldl keyStep (acc.d, wf.2)
    let cf := dir.configs.foldl keyStep (acc.c, da.2)
    ⟨tm.1, wf.1, da.1, cf.1, cf.2⟩
  else acc

/-- The number of key collisions a merge run encounters, counted over the
same processing order with no reference to conflict resolution. -/
def countCollisions (fsys : String → DirContents) (sources : List KSource) :
    Nat :=
  ((sortByPriorityDesc sources).foldl (seenSource fsys)
    ⟨[], [], [], [], 0⟩).count

/-- The spec's "parses as a structured map": a JSON/YAML mapping — an
array is structured data but not a map. -/
def isStructuredMap : Parsed → Bool
  | Parsed.map _ => true
  | _ => false

/-- Descending-priority sortedness. -/
def SortedDesc (l : List KSource) : Prop :=
  l.Pairwise (fun a b => b.priority ≤ a.priority)

/-! ## Fixtures for the concrete merge scenarios -/

/-- Fixture: a present directory holding one template file. -/
def oneTemplateDir (rel : String) (c : Text) : DirContents :=
  ⟨true, [(rel, c)], [], [], []⟩

/-- Fixture: a missing directory. -/
def absentDir : DirContents := ⟨false, [], [], [], []⟩

/-- Fixture: two federated sources, priorities 5 and 10, one key. -/
def fsysAB : String → DirContents := fun p =>
  if p = "pa" then oneTemplateDir "k.md" (Text.plain "A content")
  else if p = "pb" then oneTemplateDir "k.md" (Text.plain "B content")
  else absentDir

/-- Fixture source A, priority 5. -/
def srcA : KSource := ⟨"pa", 5, "federated", some "A"⟩

/-- Fixture source B, priority 10. -/
def srcB : KSource := ⟨"pb", 10, "federated", some "B"⟩

/-- Fixture: three sources, priorities 0 / 1 / 999, one key. -/
def fsys3 : String → DirContents := fun p =>
  if p = "p0" then oneTemplateDir "templates/api.yaml" (Text.plain "C0")
  else if p = "p1" then oneTemplateDir "templates/api.yaml" (Text.plain "C1")
  else if p = "p999" then oneTemplateDir "templates/api.yaml" (Text.plain "C999")
  else absentDir

/-- Fixture source of priority 0. -/
def src0 : KSource := ⟨"p0", 0, "federated", some "S0"⟩

/-- Fixture source of priority 1. -/
def src1 : KSource := ⟨"p1", 1, "federated", some "S1"⟩

/-- Fixture local source of priority 999. -/
def src999 : KSource := ⟨"p999", 999, "local", none⟩

/-- Fixture: a federated and a local source, equal priority, one key. -/
def fsysFL : String → DirContents := fun p =>
  if p = "pf" then oneTemplateDir "k.md" (Text.plain "F content")
  else if p = "pl" then oneTemplateDir "k.md" (Text.plain "L content")
  else absentDir

/-- Fixture federated repository of priority 999. -/
def fedCfg : RepoConfig := ⟨"https://github.com/org/f.git", "main", "pf", 999⟩

/-! ## Lemmas about the map model -/

theorem mapHas_mapDelete_self {α : Type} (m : List (String × α)) (k : String) :
    mapHas (mapDelete m k) k = false := by
  induction m with
  | nil => rfl
  | cons p t ih =>
    by_cases h : p.1 = k
    · have hd : mapDelete (p :: t) k = mapDelete t k := by
        simp [mapDelete, List.filter_cons, h]
      rw [hd]
      exact ih
    · have hb : (p.1 == k) = false := by simp [h]
      have hd : mapDelete (p :: t) k = p :: mapDelete t k := by
        simp [mapDelete, List.filter_cons, hb]
      rw [hd]
      simp only [mapHas, List.any_cons, hb, Bool.false_or]
      exact ih

/-- The sync result of an unlocked `syncRepo` call is the outcome of the
attempted git operation — never `in_progress`. -/
theorem syncRepo_result_of_not_locked (st : GMState) (repoUrl localPath : String)
    (now : Int) (env : GitEnv)
    (h : mapHas st.lockFiles (lockKeyOf repoUrl localPath) = false) :
    (syncRepo st repoUrl localPath now env).result =
      match (if env.pathExists then pullRepository env else cloneRepository env) with
      | Except.ok op => SyncResult.success op
      | Except.error m => SyncResult.error m := by
  simp only [syncRepo, h, Bool.false_eq_true, if_false]
  split <;> rfl

/-- After an unlocked `syncRepo` call the lock for the key is gone again. -/
theorem syncRepo_releases_lock (st : GMState) (repoUrl localPath : String)
    (now : Int) (env : GitEnv)
    (h : mapHas st.lockFiles (lockKeyOf repoUrl localPath) = false) :
    mapHas (syncRepo st repoUrl localPath now env).state.lockFiles
      (lockKeyOf repoUrl localPath) = false := by
  simp only [syncRepo, h, Bool.false_eq_true, if_false]
  split <;> exact mapHas_mapDelete_self _ _

/-! ## Claim theorems: GitManager -/

/-- C1: while a sync for a `(repoUrl, localPath)` key is in flight (its lock
entry is present), a second `syncRepo` call on the same key returns
`in_progress`, performs no clone or pull I/O and leaves the timestamps
untouched — its guaranteed-release block runs on the early return too and
deletes the in-flight call's lock entry, which the statement records
faithfully; and a call that acquires the lock always ends — success or
error — with the lock entry removed, so a subsequent sync on the same key
is never answered `in_progress` because of a leftover lock. -/
theorem syncRepo_lock_protocol (st : GMState) (repoUrl localPath : String)
    (now : Int) (env : GitEnv) :
    (mapHas st.lockFiles (lockKeyOf repoUrl localPath) = true →
      syncRepo st repoUrl localPath now env =
        { state := { st with
            lockFiles := mapDelete st.lockFiles (lockKeyOf repoUrl localPath) },
          result := SyncResult.inProgress, gitOps := [] }) ∧
    (mapHas st.lockFiles (lockKeyOf repoUrl localPath) = false →
      mapHas (syncRepo st repoUrl localPath now env).state.lockFiles
        (lockKeyOf repoUrl localPath) = false ∧
      ∀ (now₂ : Int) (env₂ : GitEnv),
        (syncRepo (syncRepo st repoUrl localPath now env).state
          repoUrl localPath now₂ env₂).result ≠ SyncResult.inProgress) := by
  constructor
  · intro h
    simp [syncRepo, h]
  · intro h
    refine ⟨syncRepo_releases_lock st repoUrl localPath now env h, ?_⟩
    intro now₂ env₂
    rw [syncRepo_result_of_not_locked _ _ _ _ _
      (syncRepo_releases_lock st repoUrl localPath now env h)]
    split <;> simp

/-- Closed instance of `syncRepo_lock_protocol`: a locked call returns
`in_progress` with no git I/O (and, faithfully, the lock entry deleted by
the early-returning `finally`), and an unlocked call leaves no lock
behind. -/
theorem syncRepo_lock_protocol_witness :
    syncRepo ⟨[(lockKeyOf "r" "c", 1)], []⟩ "r" "c" 5 ⟨false, none, none, none⟩ =
      { state := ⟨mapDelete [(lockKeyOf "r" "c", 1)] (lockKeyOf "r" "c"), []⟩,
        result := SyncResult.inProgress, gitOps := [] } ∧
    mapHas (syncRepo ⟨[], []⟩ "r" "c" 5
        ⟨false, none, none, none⟩).state.lockFiles (lockKeyOf "r" "c") = false :=
  ⟨(syncRepo_lock_protocol ⟨[(lockKeyOf "r" "c", 1)], []⟩ "r" "c" 5
      ⟨false, none, none, none⟩).1 (by decide),
   ((syncRepo_lock_protocol ⟨[], []⟩ "r" "c" 5
      ⟨false, none, none, none⟩).2 (by decide)).1⟩

/-- C4: `shouldSync` equals a pure function of the sync policy and the
elapsed time since the last recorded sync for the `(repo, local_cache)`
key, where an absent entry — or a stored epoch value of 0, which the
code's falsy `if (!lastSync)` treats as never synced — counts as no
recorded sync: never synced → `true` for every policy; `daily` → `true`
iff elapsed is strictly more than 24 hours; `weekly` → `true` iff strictly
more than 7 days; `on_demand`, `manual` (and any unrecognised policy) →
`false`. -/
theorem shouldSync_pure (st : GMState) (repo localCache : String)
    (policy : SyncPolicy) (now : Int) :
    shouldSync st repo localCache policy now =
      shouldSyncPure policy
        (elapsedSinceLastSync st.syncTimestamps (lockKeyOf repo localCache)
          now) := by
  cases h : mapGet st.syncTimestamps (lockKeyOf repo localCache) with
  | none => simp [shouldSync, shouldSyncPure, elapsedSinceLastSync, h]
  | some lastSync =>
    by_cases h0 : lastSync = 0
    · simp [shouldSync, shouldSyncPure, elapsedSinceLastSync, h, h0]
    · cases policy <;>
        simp [shouldSync, shouldSyncPure, elapsedSinceLastSync, h, h0]

/-- C4 counterexample: with a sync recorded at epoch 1000, policy `daily`
returns `false` at an elapsed time of exactly 24 hours, refuting the
claim's "at least 24 hours" (`≥`) reading — the code's comparison is
strict; and a *recorded* timestamp of 0 is falsy, so after only one hour
the code returns `true`, refuting the "exactly when" in the other
direction. -/
theorem shouldSync_daily_boundary_cex :
    shouldSync ⟨[], [(lockKeyOf "r" "c", 1000)]⟩ "r" "c" SyncPolicy.daily
        (1000 + 24 * 60 * 60 * 1000) = false ∧
    (1000 + 24 * 60 * 60 * 1000 : Int) - 1000 ≥ 24 * 60 * 60 * 1000 ∧
    shouldSync ⟨[], [(lockKeyOf "r" "c", 0)]⟩ "r" "c" SyncPolicy.daily
        (60 * 60 * 1000) = true ∧
    (60 * 60 * 1000 : Int) - 0 < 24 * 60 * 60 * 1000 := by
  refine ⟨rfl, by decide, rfl, by decide⟩

/-- C6: `syncRepo` writes a new sync timestamp for the key exactly when it
returns `success`; on an `error` result (and on `in_progress`) the
timestamp map is left exactly as it was before the call. -/
theorem syncRepo_timestamp_discipline (st : GMState)
    (repoUrl localPath : String) (now : Int) (env : GitEnv) :
    ((∀ op, (syncRepo st repoUrl localPath now env).result ≠
        SyncResult.success op) →
      (syncRepo st repoUrl localPath now env).state.syncTimestamps =
        st.syncTimestamps) ∧
    (∀ op, (syncRepo st repoUrl localPath now env).result =
        SyncResult.success op →
      (syncRepo st repoUrl localPath now env).state.syncTimestamps =
        mapSet st.syncTimestamps (lockKeyOf repoUrl localPath) now) := by
  by_cases h : mapHas st.lockFiles (lockKeyOf repoUrl localPath)
  · constructor
    · intro _; simp [syncRepo, h]
    · intro op hop
      exfalso
      simp [syncRepo, h] at hop
  · replace h : mapHas st.lockFiles (lockKeyOf repoUrl localPath) = false :=
      by simp only [Bool.not_eq_true] at h; exact h
    cases hE : (if env.pathExists then pullRepository env else cloneRepository env) with
    | error m =>
      constructor
      · intro _
        simp [syncRepo, h, hE]
      · intro op hop
        rw [syncRepo_result_of_not_locked st repoUrl localPath now env h, hE] at hop
        exact absurd hop (by simp)
    | ok op' =>
      constructor
      · intro hne
        exfalso
        apply hne op'
        rw [syncRepo_result_of_not_locked st repoUrl localPath now env h, hE]
      · intro op hop
        simp [syncRepo, h, hE]

/-- Closed instance of `syncRepo_timestamp_discipline`: a failing clone
leaves the timestamps unchanged; a successful clone records one. -/
theorem syncRepo_timestamp_discipline_witness :
    (syncRepo ⟨[], [(lockKeyOf "r" "c", 3)]⟩ "r" "c" 5
        ⟨false, some "network error", none, none⟩).state.syncTimestamps =
      [(lockKeyOf "r" "c", 3)] ∧
    (syncRepo ⟨[], []⟩ "r" "c" 5
        ⟨false, none, none, none⟩).state.syncTimestamps =
      mapSet [] (lockKeyOf "r" "c") 5 :=
  ⟨(syncRepo_timestamp_discipline ⟨[], [(lockKeyOf "r" "c", 3)]⟩ "r" "c" 5
      ⟨false, some "network error", none, none⟩).1
      (by intro op; simp +decide [syncRepo, cloneRepository]),
   (syncRepo_timestamp_discipline ⟨[], []⟩ "r" "c" 5
      ⟨false, none, none, none⟩).2 GitOp.clone (by decide)⟩

/-- C7: evaluating `removeRepository` at a representative input.  The
configuration document and registry are left free of the source's key and
its sync-timestamp entry is deleted, but the path handed to `fs.remove` is
`"//github.com/org/myrepo.git"` — a fragment of the repository URL produced
by `lockKey.split(':')[1]` — and not the source's cache directory
`"./bmad-cache/myrepo"`, which is therefore never deleted from disk. -/
theorem removeRepository_deletes_wrong_path :
    removeRepository
      ⟨[("myrepo", ⟨"https://github.com/org/myrepo.git", "main",
          "./bmad-cache/myrepo", 1⟩)],
       [("myrepo", ⟨"https://github.com/org/myrepo.git", "main",
          "./bmad-cache/myrepo", 1⟩)],
       ⟨[], [(lockKeyOf "https://github.com/org/myrepo.git"
          "./bmad-cache/myrepo", 7)]⟩⟩
      "myrepo" =
      some (⟨[], [], ⟨[], []⟩⟩, some "//github.com/org/myrepo.git") ∧
    ("//github.com/org/myrepo.git" : String) ≠ "./bmad-cache/myrepo" := by
  constructor
  · rfl
  · decide

/-! ## More map-model lemmas -/

theorem mapHas_iff_mem {α : Type} (m : List (String × α)) (k : String) :
    mapHas m k = true ↔ k ∈ m.map Prod.fst := by
  simp [mapHas, List.any_eq_true, List.mem_map, beq_iff_eq]

theorem mapGet_cons {α : Type} (p : String × α) (t : List (String × α))
    (k : String) :
    mapGet (p :: t) k = if p.1 == k then some p.2 else mapGet t k := by
  simp only [mapGet, List.find?]
  cases hpk : (p.1 == k) with
  | true => simp
  | false => simp

theorem mapGet_eq_none_of_not_has {α : Type} (m : List (String × α))
    (k : String) : mapHas m k = false → mapGet m k = none := by
  induction m with
  | nil => intro _; rfl
  | cons p t ih =>
    intro h
    simp only [mapHas, List.any_cons, Bool.or_eq_false_iff] at h
    rw [mapGet_cons, h.1]
    simpa using ih h.2

theorem mapSet_of_not_has {α : Type} (m : List (String × α)) (k : String)
    (v : α) (h : mapHas m k = false) : mapSet m k v = m ++ [(k, v)] := by
  simp [mapSet, h]

/-- In the overwrite branch of `mapSet`, the key reads back the new value. -/
theorem mapGet_map_update {α : Type} (k : String) (v : α) :
    ∀ (m : List (String × α)), mapHas m k = true →
      mapGet (m.map (fun p => if p.1 == k then (k, v) else p)) k = some v := by
  intro m
  induction m with
  | nil => intro h; simp [mapHas] at h
  | cons p t ih =>
    intro h
    by_cases hpk : (p.1 == k) = true
    · simp only [List.map_cons, hpk, if_true]
      rw [mapGet_cons]
      simp
    · have hpf : (p.1 == k) = false := by simpa using hpk
      have hht : mapHas t k = true := by
        simp only [mapHas, List.any_cons, hpf, Bool.false_or] at h
        exact h
      simp only [List.map_cons, hpf, Bool.false_eq_true, if_false]
      rw [mapGet_cons, hpf]
      simpa using ih hht

/-- In the append branch of `mapSet`, the key reads back the new value. -/
theorem mapGet_append_new {α : Type} (k : String) (v : α) :
    ∀ (m : List (String × α)), mapHas m k = false →
      mapGet (m ++ [(k, v)]) k = some v := by
  intro m
  induction m with
  | nil =>
    intro _
    rw [List.nil_append, mapGet_cons]
    simp
  | cons p t ih =>
    intro h
    simp only [mapHas, List.any_cons, Bool.or_eq_false_iff] at h
    rw [List.cons_append, mapGet_cons, h.1]
    simpa using ih h.2

theorem mapGet_mapSet_self {α : Type} (m : List (String × α)) (k : String)
    (v : α) : mapGet (mapSet m k v) k = some v := by
  by_cases h : mapHas m k
  · rw [mapSet, if_pos h]
    exact mapGet_map_update k v m h
  · have hf : mapHas m k = false := by simpa using h
    rw [mapSet_of_not_has m k v hf]
    exact mapGet_append_new k v m hf

/-! ## Claim theorems: conflict handling -/

/-- C3: under the `priority` strategy a collision resolves to `replace`
exactly when the incoming source's priority is strictly greater than the
existing entry's recorded priority; on a tie the resolution is `keep`; and
in the category-map fold the entry is accordingly swapped for the incoming
artifact exactly when the comparison is strict, an equal-priority collision
leaving the existing (first-seen) entry unchanged. -/
theorem priority_replace_iff (ctype rel : String) (e : Entry)
    (src : SourceMeta) :
    ((handleConflict Strategy.priority ctype (normalizeKey rel) e
        src).resolution = "replace" ↔ src.priority > e.priority) ∧
    (src.priority = e.priority →
      (handleConflict Strategy.priority ctype (normalizeKey rel) e
        src).resolution = "keep") ∧
    (∀ (m : List (String × Entry)) (cs : List ConflictRecord) (content : Text),
      mapGet m (normalizeKey rel) = some e →
      (stdItemStep Strategy.priority ctype src (m, cs) (rel, content)).1 =
        if src.priority > e.priority then
          mapSet m (normalizeKey rel) (mkEntry content src)
        else m) := by
  by_cases hgt : src.priority > e.priority
  · refine ⟨by simp [handleConflict, hgt], ?_, ?_⟩
    · intro heq
      omega
    · intro m cs content hm
      simp [stdItemStep, hm, handleConflict, hgt]
  · refine ⟨by simp [handleConflict, hgt], ?_, ?_⟩
    · intro _
      simp [handleConflict, hgt]
    · intro m cs content hm
      simp [stdItemStep, hm, handleConflict, hgt]

/-- Closed instance of `priority_replace_iff`: a priority-10 incoming
source replaces a priority-5 entry, and an equal-priority (5 vs 5)
collision keeps the existing entry and map unchanged. -/
theorem priority_replace_iff_witness :
    ((handleConflict Strategy.priority "template" (normalizeKey "k.md")
        ⟨Text.plain "old", "A", 5, false, none⟩ ⟨"B", 10⟩).resolution =
      "replace" ↔ (10 : Int) > 5) ∧
    (handleConflict Strategy.priority "template" (normalizeKey "k.md")
        ⟨Text.plain "old", "A", 5, false, none⟩ ⟨"C", 5⟩).resolution = "keep" ∧
    (stdItemStep Strategy.priority "template" ⟨"C", 5⟩
        ([(normalizeKey "k.md", ⟨Text.plain "old", "A", 5, false, none⟩)], [])
        ("k.md", Text.plain "new")).1 =
      [(normalizeKey "k.md", ⟨Text.plain "old", "A", 5, false, none⟩)] :=
  ⟨(priority_replace_iff "template" "k.md"
      ⟨Text.plain "old", "A", 5, false, none⟩ ⟨"B", 10⟩).1,
   (priority_replace_iff "template" "k.md"
      ⟨Text.plain "old", "A", 5, false, none⟩ ⟨"C", 5⟩).2.1 rfl,
   by
    have h := (priority_replace_iff "template" "k.md"
      ⟨Text.plain "old", "A", 5, false, none⟩ ⟨"C", 5⟩).2.2
      [(normalizeKey "k.md", ⟨Text.plain "old", "A", 5, false, none⟩)] []
      (Text.plain "new") (by simp [mapGet, List.find?])
    simpa using h⟩

/-- `mergeWith` on two objects is the field-by-field fold. -/
theorem mergeWith_map_map (fa fb : List (String × Parsed)) :
    mergeWith (Parsed.map fa) (Parsed.map fb) =
      mergeFieldList (Parsed.map fa) fb := by
  simp [mergeWith]

/-- Folding an object with fresh, pairwise-distinct keys into an object
appends all its fields: disjoint maps merge to the union of both. -/
theorem mergeFieldList_disjoint :
    ∀ (fb fa : List (String × Parsed)),
      (∀ k, mapHas fa k = true → mapHas fb k = false) →
      (fb.map Prod.fst).Nodup →
      mergeFieldList (Parsed.map fa) fb = Parsed.map (fa ++ fb) := by
  intro fb
  induction fb with
  | nil => intro fa _ _; simp [mergeFieldList]
  | cons p rest ih =>
    intro fa hdisj hnd
    obtain ⟨k, sv⟩ := p
    have hknotin : mapHas fa k = false := by
      by_contra hc
      have hk : mapHas fa k = true := by simpa using hc
      have := hdisj k hk
      simp [mapHas, List.any_cons] at this
    have hget : mapGet fa k = none := mapGet_eq_none_of_not_has fa k hknotin
    have hset : mapSet fa k sv = fa ++ [(k, sv)] :=
      mapSet_of_not_has fa k sv hknotin
    have hstep : mergeFieldList (Parsed.map fa) ((k, sv) :: rest) =
        mergeFieldList (Parsed.map (fa ++ [(k, sv)])) rest := by
      simp [mergeFieldList, objGet, hget, objSet, hset]
    rw [hstep]
    have hdisj' : ∀ k', mapHas (fa ++ [(k, sv)]) k' = true →
        mapHas rest k' = false := by
      intro k' hk'
      simp only [mapHas, List.any_append, List.any_cons, List.any_nil,
        Bool.or_eq_true] at hk'
      rcases hk' with hk' | hk'
      · have := hdisj k' (by simpa [mapHas] using hk')
        simp only [mapHas, List.any_cons, Bool.or_eq_false_iff] at this
        exact this.2
      · rcases hk' with hk' | hk'
        · rw [beq_iff_eq] at hk'
          subst hk'
          have hnotmem : k ∉ rest.map Prod.fst := by
            have := hnd
            simp only [List.map_cons, List.nodup_cons] at this
            exact this.1
          by_contra hc
          have hmem : mapHas rest k = true := by simpa using hc
          rw [mapHas_iff_mem] at hmem
          exact hnotmem hmem
        · cases hk'
    have hnd' : (rest.map Prod.fst).Nodup := by
      have := hnd
      simp only [List.map_cons, List.nodup_cons] at this
      exact this.2
    have := ih (fa ++ [(k, sv)]) hdisj' hnd'
    rw [this]
    simp

/-- C5 (amended): on a `data` key collision, when both contents parse as
lodash objects (structured maps *or arrays*) the stored content becomes the
deep merge — nested maps merge recursively, disjoint maps merge to the
union of both, array fields concatenate without deduplication — recorded
with resolution `merged`; when either side parses as neither map nor array
the collision falls back to the configured standard strategy with the
entry left unchanged. -/
theorem dataConflict_merge_spec :
    (∀ (strat : Strategy) (key : String) (e : Entry) (inc : Text)
        (src : SourceMeta),
      isObject (parseContent e.content) = true →
      isObject (parseContent inc) = true →
      handleDataConflict strat key e inc src =
        ({ e with
            content := Text.jsonOf
              (mergeWith (parseContent e.content) (parseContent inc)),
            merged := true,
            sources := some [e.source, src.name] },
         ⟨"data", key, none, none, "merged",
          "Successfully merged data structures"⟩)) ∧
    (∀ (fa fb : List (String × Parsed)),
      (∀ k, mapHas fa k = true → mapHas fb k = false) →
      (fb.map Prod.fst).Nodup →
      mergeWith (Parsed.map fa) (Parsed.map fb) = Parsed.map (fa ++ fb)) ∧
    (∀ (k : String) (a b : List Parsed),
      mergeWith (Parsed.map [(k, Parsed.arr a)])
          (Parsed.map [(k, Parsed.arr b)]) =
        Parsed.map [(k, Parsed.arr (a ++ b))]) ∧
    (∀ (strat : Strategy) (key : String) (e : Entry) (inc : Text)
        (src : SourceMeta),
      (isObject (parseContent e.content) && isObject (parseContent inc)) =
        false →
      handleDataConflict strat key e inc src =
        (e, handleConflict strat "data" key e src)) := by
  refine ⟨?_, ?_, ?_, ?_⟩
  · intro strat key e inc src h1 h2
    simp [handleDataConflict, h1, h2]
  · intro fa fb hdisj hnd
    rw [mergeWith_map_map]
    exact mergeFieldList_disjoint fb fa hdisj hnd
  · intro k a b
    simp [mergeWith, mergeFieldList, objGet, objSet, mapGet, mapSet, mapHas,
      List.find?, jsConcat]
  · intro strat key e inc src h
    simp only [handleDataConflict, h, Bool.false_eq_true, if_false]

/-- C5 counterexample: two `data` contents that are JSON *arrays* — valid
structured data but not structured maps — still take the merge path and are
recorded `merged`; the code's guard is lodash `isObject`, which accepts
arrays, so resolution does not fall back to the standard strategy (which
here would have said `keep`). -/
theorem dataConflict_array_cex :
    (handleDataConflict Strategy.priority "k"
        ⟨Text.jsonOf (Parsed.arr [Parsed.num 1]), "E", 10, false, none⟩
        (Text.jsonOf (Parsed.arr [Parsed.num 2])) ⟨"I", 5⟩).2.resolution =
      "merged" ∧
    isStructuredMap
      (parseContent (Text.jsonOf (Parsed.arr [Parsed.num 1]))) = false ∧
    (handleConflict Strategy.priority "data" "k"
        ⟨Text.jsonOf (Parsed.arr [Parsed.num 1]), "E", 10, false, none⟩
        ⟨"I", 5⟩).resolution = "keep" ∧
    ("merged" : String) ≠ "keep" :=
  ⟨rfl, rfl, rfl, by decide⟩

/-- Closed instance of `dataConflict_merge_spec`: two disjoint YAML maps
merge to the union, recorded `merged`; a plain string on one side falls
back to the priority strategy. -/
theorem dataConflict_merge_spec_witness :
    handleDataConflict Strategy.priority "k"
        ⟨Text.yamlOf (Parsed.map [("a", Parsed.num 1)]), "E", 10, false, none⟩
        (Text.yamlOf (Parsed.map [("b", Parsed.num 2)])) ⟨"I", 5⟩ =
      (⟨Text.jsonOf (Parsed.map [("a", Parsed.num 1), ("b", Parsed.num 2)]),
        "E", 10, true, some ["E", "I"]⟩,
       ⟨"data", "k", none, none, "merged",
        "Successfully merged data structures"⟩) ∧
    handleDataConflict Strategy.priority "k"
        ⟨Text.plain "just words", "E", 10, false, none⟩
        (Text.yamlOf (Parsed.map [("b", Parsed.num 2)])) ⟨"I", 5⟩ =
      (⟨Text.plain "just words", "E", 10, false, none⟩,
       handleConflict Strategy.priority "data" "k"
         ⟨Text.plain "just words", "E", 10, false, none⟩ ⟨"I", 5⟩) := by
  have hm : mergeWith (Parsed.map [("a", Parsed.num 1)])
      (Parsed.map [("b", Parsed.num 2)]) =
      Parsed.map [("a", Parsed.num 1), ("b", Parsed.num 2)] := by
    rw [mergeWith_map_map]
    have hd : ∀ k, mapHas [("a", Parsed.num 1)] k = true →
        mapHas [("b", Parsed.num 2)] k = false := by
      intro k hk
      simp only [mapHas, List.any_cons, List.any_nil, Bool.or_false,
        beq_iff_eq] at hk
      subst hk
      decide
    have hn : (([("b", Parsed.num 2)]).map Prod.fst).Nodup := by simp
    simpa using mergeFieldList_disjoint [("b", Parsed.num 2)]
      [("a", Parsed.num 1)] hd hn
  constructor
  · have h := dataConflict_merge_spec.1 Strategy.priority "k"
      ⟨Text.yamlOf (Parsed.map [("a", Parsed.num 1)]), "E", 10, false, none⟩
      (Text.yamlOf (Parsed.map [("b", Parsed.num 2)])) ⟨"I", 5⟩ rfl rfl
    rw [h]
    simp only [parseContent]
    rw [hm]
  · exact dataConflict_merge_spec.2.2.2 Strategy.priority "k"
      ⟨Text.plain "just words", "E", 10, false, none⟩
      (Text.yamlOf (Parsed.map [("b", Parsed.num 2)])) ⟨"I", 5⟩ rfl

/-- C10: a `data` collision resolved as `merged` mutates the existing map
entry in place: its content becomes the JSON serialization of the deep
merge (a `jsonOf`, even when both inputs were YAML), `merged` and `sources`
are set, while `source` and `priority` keep the first-seen entry's values
— not the incoming source's; and `processData` stores the mutated object
back under the same key. -/
theorem dataConflict_in_place (strat : Strategy) (key : String) (e : Entry)
    (inc : Text) (src : SourceMeta)
    (h1 : isObject (parseContent e.content) = true)
    (h2 : isObject (parseContent inc) = true) :
    ((handleDataConflict strat key e inc src).1.content =
      Text.jsonOf (mergeWith (parseContent e.content) (parseContent inc)) ∧
     (handleDataConflict strat key e inc src).1.merged = true ∧
     (handleDataConflict strat key e inc src).1.sources =
       some [e.source, src.name] ∧
     (handleDataConflict strat key e inc src).1.source = e.source ∧
     (handleDataConflict strat key e inc src).1.priority = e.priority) ∧
    (∀ (m : List (String × Entry)) (cs : List ConflictRecord) (rel : String),
      mapGet m (normalizeKey rel) = some e →
      (dataItemStep strat src (m, cs) (rel, inc)).1 =
        mapSet m (normalizeKey rel)
          (handleDataConflict strat (normalizeKey rel) e inc src).1) := by
  constructor
  · simp [handleDataConflict, h1, h2]
  · intro m cs rel hm
    simp [dataItemStep, hm]

/-- Closed instance of `dataConflict_in_place`: merging two YAML maps from
sources "E" (priority 10, first seen) and "I" (priority 5) keeps `source =
"E"`, `priority = 10`, and produces a `jsonOf` content. -/
theorem dataConflict_in_place_witness :
    (handleDataConflict Strategy.priority "k"
        ⟨Text.yamlOf (Parsed.map [("a", Parsed.num 1)]), "E", 10, false, none⟩
        (Text.yamlOf (Parsed.map [("b", Parsed.num 2)])) ⟨"I", 5⟩).1.content =
      Text.jsonOf (mergeWith (Parsed.map [("a", Parsed.num 1)])
        (Parsed.map [("b", Parsed.num 2)])) ∧
    (handleDataConflict Strategy.priority "k"
        ⟨Text.yamlOf (Parsed.map [("a", Parsed.num 1)]), "E", 10, false, none⟩
        (Text.yamlOf (Parsed.map [("b", Parsed.num 2)])) ⟨"I", 5⟩).1.source =
      "E" :=
  have h := dataConflict_in_place Strategy.priority "k"
    ⟨Text.yamlOf (Parsed.map [("a", Parsed.num 1)]), "E", 10, false, none⟩
    (Text.yamlOf (Parsed.map [("b", Parsed.num 2)])) ⟨"I", 5⟩ rfl rfl
  ⟨h.1.1, h.1.2.2.2.1⟩

/-! ## Sorting lemmas (for the highest-priority-first merge order) -/

theorem insertDesc_perm (x : KSource) :
    ∀ (l : List KSource), (insertDesc x l).Perm (x :: l) := by
  intro l
  induction l with
  | nil => exact List.Perm.refl _
  | cons y ys ih =>
    by_cases h : x.priority > y.priority
    · simp only [insertDesc, h, if_true]
      exact List.Perm.refl _
    · simp only [insertDesc, h, if_false]
      exact (ih.cons y).trans (List.Perm.swap x y ys)

theorem sortByPriorityDesc_perm (l : List KSource) :
    (sortByPriorityDesc l).Perm l := by
  have haux : ∀ (l acc : List KSource),
      (l.foldl (fun a x => insertDesc x a) acc).Perm (acc ++ l) := by
    intro l
    induction l with
    | nil => intro acc; simp
    | cons x xs ih =>
      intro acc
      have h1 := ih (insertDesc x acc)
      have h2 : (insertDesc x acc ++ xs).Perm (acc ++ x :: xs) :=
        ((insertDesc_perm x acc).append_right xs).trans List.perm_middle.symm
      exact h1.trans h2
  simpa using haux l []

theorem mem_insertDesc {x y : KSource} {l : List KSource} :
    y ∈ insertDesc x l ↔ y = x ∨ y ∈ l := by
  rw [(insertDesc_perm x l).mem_iff]
  simp

theorem insertDesc_sorted (x : KSource) :
    ∀ (l : List KSource), SortedDesc l → SortedDesc (insertDesc x l) := by
  intro l
  induction l with
  | nil => intro _; simp [insertDesc, SortedDesc]
  | cons y ys ih =>
    intro hs
    rcases List.pairwise_cons.mp hs with ⟨hy, hys⟩
    by_cases h : x.priority > y.priority
    · simp only [insertDesc, h, if_true]
      refine List.pairwise_cons.mpr ⟨?_, hs⟩
      intro b hb
      rcases List.mem_cons.mp hb with rfl | hb
      · omega
      · have := hy b hb
        omega
    · simp only [insertDesc, h, if_false]
      refine List.pairwise_cons.mpr ⟨?_, ih hys⟩
      intro b hb
      rcases mem_insertDesc.mp hb with rfl | hb
      · omega
      · exact hy b hb

theorem sortByPriorityDesc_sorted (l : List KSource) :
    SortedDesc (sortByPriorityDesc l) := by
  have haux : ∀ (l acc : List KSource), SortedDesc acc →
      SortedDesc (l.foldl (fun a x => insertDesc x a) acc) := by
    intro l
    induction l with
    | nil => intro acc h; simpa using h
    | cons x xs ih =>
      intro acc h
      exact ih (insertDesc x acc) (insertDesc_sorted x acc h)
  exact haux l [] (by simp [SortedDesc])

/-- Pairwise-distinct priorities imply no duplicated source. -/
theorem count_le_one_of_pairwise_ne :
    ∀ (l : List KSource),
      l.Pairwise (fun a b => a.priority ≠ b.priority) →
      ∀ x, l.count x ≤ 1 := by
  intro l
  induction l with
  | nil => intro _ x; simp
  | cons a t ih =>
    intro hp x
    rcases List.pairwise_cons.mp hp with ⟨ha, ht⟩
    by_cases hx : x = a
    · subst hx
      have hnot : x ∉ t := fun hmem => (ha x hmem) rfl
      rw [List.count_cons_self]
      have hz : t.count x = 0 := List.count_eq_zero.mpr hnot
      omega
    · rw [List.count_cons_of_ne hx]
      exact ih ht x

/-- A sorted permutation of a list with pairwise-distinct priorities starts
with the unique maximum, and everything after it has strictly smaller
priority. -/
theorem sorted_max_head (l srcs : List KSource) (hperm : l.Perm srcs)
    (hsort : SortedDesc l)
    (hdist : srcs.Pairwise (fun a b => a.priority ≠ b.priority))
    (smax : KSource) (hmem : smax ∈ srcs)
    (hmax : ∀ t ∈ srcs, t = smax ∨ t.priority < smax.priority) :
    ∃ rest, l = smax :: rest ∧ ∀ t ∈ rest, t.priority < smax.priority := by
  cases l with
  | nil => exact absurd (hperm.mem_iff.mpr hmem) (List.not_mem_nil smax)
  | cons h rest =>
    have hh : h ∈ srcs := hperm.mem_iff.mp (by simp)
    rcases hmax h hh with rfl | hlt
    · refine ⟨rest, rfl, ?_⟩
      intro t htmem
      have htsrcs : t ∈ srcs := hperm.mem_iff.mp (List.mem_cons_of_mem _ htmem)
      rcases hmax t htsrcs with rfl | hlt
      · exfalso
        have hcount : srcs.count t ≤ 1 := count_le_one_of_pairwise_ne srcs hdist t
        have hcl : (t :: rest).count t = srcs.count t := hperm.count_eq t
        rw [List.count_cons_self] at hcl
        have hnz : rest.count t ≠ 0 := by
          intro h0
          rw [List.count_eq_zero] at h0
          exact h0 htmem
        omega
      · exact hlt
    · exfalso
      have hs_in_l : smax ∈ h :: rest := hperm.mem_iff.mpr hmem
      rcases List.mem_cons.mp hs_in_l with heq | hs_rest
      · rw [heq] at hlt
        exact absurd hlt (lt_irrefl _)
      · have := (List.pairwise_cons.mp hsort).1 smax hs_rest
        omega

/-- Folding further sources that all collide on the one template key with
strictly lower priority than the stored entry leaves every category map
unchanged and appends exactly one `keep` record per source. -/
theorem keep_fold (fsys : String → DirContents) (rel : String) :
    ∀ (rest : List KSource) (m : Merged) (e : Entry),
      mapGet m.templates (normalizeKey rel) = some e →
      (∀ s ∈ rest, (fsys s.path).present = true ∧
        (∃ c, (fsys s.path).templates = [(rel, c)]) ∧
        (fsys s.path).workflows = [] ∧ (fsys s.path).dataFiles = [] ∧
        (fsys s.path).configs = [] ∧ s.priority < e.priority) →
      (rest.foldl (processKnowledgeSource fsys Strategy.priority)
          m).templates = m.templates ∧
      (rest.foldl (processKnowledgeSource fsys Strategy.priority)
          m).conflicts.length = m.conflicts.length + rest.length ∧
      (∀ cf ∈ (rest.foldl (processKnowledgeSource fsys Strategy.priority)
          m).conflicts, cf ∈ m.conflicts ∨ cf.resolution = "keep") := by
  intro rest
  induction rest with
  | nil =>
    intro m e hm _
    exact ⟨rfl, by simp, fun cf hcf => Or.inl hcf⟩
  | cons s rest' ih =>
    intro m e hm hall
    obtain ⟨hpres, ⟨c, htempl⟩, hwf, hdf, hcf, hlt⟩ := hall s (by simp)
    have hnogt : ¬ (metaOf s).priority > e.priority := by
      simp only [metaOf]
      omega
    have hkeep : (handleConflict Strategy.priority "template"
        (normalizeKey rel) e (metaOf s)).resolution = "keep" := by
      simp [handleConflict, hnogt]
    have hstep : processKnowledgeSource fsys Strategy.priority m s =
        { sourcesMeta := m.sourcesMeta ++ [metaOf s],
          templates := m.templates,
          workflows := m.workflows,
          dataEntries := m.dataEntries,
          configs := m.configs,
          conflicts := m.conflicts ++
            [handleConflict Strategy.priority "template" (normalizeKey rel) e
              (metaOf s)] } := by
      simp [processKnowledgeSource, hpres, htempl, hwf, hdf, hcf, processStd,
        processData, stdItemStep, hm, handleConflict, hnogt]
    have hfold : (s :: rest').foldl
        (processKnowledgeSource fsys Strategy.priority) m =
        rest'.foldl (processKnowledgeSource fsys Strategy.priority)
          (processKnowledgeSource fsys Strategy.priority m s) := rfl
    rw [hfold, hstep]
    have ihres := ih
      { sourcesMeta := m.sourcesMeta ++ [metaOf s],
        templates := m.templates,
        workflows := m.workflows,
        dataEntries := m.dataEntries,
        configs := m.configs,
        conflicts := m.conflicts ++
          [handleConflict Strategy.priority "template" (normalizeKey rel) e
            (metaOf s)] } e hm
      (fun t ht => hall t (List.mem_cons_of_mem _ ht))
    refine ⟨ihres.1, ?_, ?_⟩
    · rw [ihres.2.1]
      dsimp only
      simp only [List.length_append, List.length_cons, List.length_nil]
      omega
    · intro cf hcfm
      rcases ihres.2.2 cf hcfm with hin | hk
      · rcases List.mem_append.mp hin with hin | hin
        · exact Or.inl hin
        · rcases List.mem_singleton.mp hin with rfl
          exact Or.inr hkeep
      · exact Or.inr hk

/-- C2 (amended): in a merge under the `priority` strategy of sources with
pairwise distinct priorities that each define the same single template key,
the merged tree maps that key to the content of the highest-priority
source, and every conflict record written has resolution `keep` — the
merger processes sources highest-priority first, so each colliding incoming
source has the *lower* priority and the existing entry is kept; exactly
one record per colliding source is written (two sources of priorities
5 and 10 yield the priority-10 content with one `keep` record; priorities
[0, 1, 999] yield the priority-999 content with exactly two records, both
`keep`). -/
theorem priority_merge_highest_wins (fsys : String → DirContents)
    (srcs : List KSource) (rel : String) (smax : KSource) (cmax : Text)
    (hAll : ∀ s ∈ srcs, (fsys s.path).present = true ∧
        (∃ c, (fsys s.path).templates = [(rel, c)]) ∧
        (fsys s.path).workflows = [] ∧ (fsys s.path).dataFiles = [] ∧
        (fsys s.path).configs = [])
    (hdist : srcs.Pairwise (fun a b => a.priority ≠ b.priority))
    (hmem : smax ∈ srcs)
    (hmax : ∀ t ∈ srcs, t = smax ∨ t.priority < smax.priority)
    (hcmax : (fsys smax.path).templates = [(rel, cmax)]) :
    mapGet (mergeKnowledgeSources fsys Strategy.priority srcs).templates
        (normalizeKey rel) = some (mkEntry cmax (metaOf smax)) ∧
    (mergeKnowledgeSources fsys Strategy.priority srcs).conflicts.length =
      srcs.length - 1 ∧
    ∀ cf ∈ (mergeKnowledgeSources fsys Strategy.priority srcs).conflicts,
      cf.resolution = "keep" := by
  obtain ⟨rest, hsorteq, hrest⟩ := sorted_max_head (sortByPriorityDesc srcs)
    srcs (sortByPriorityDesc_perm srcs) (sortByPriorityDesc_sorted srcs)
    hdist smax hmem hmax
  obtain ⟨hpres, ⟨c₀, htempl₀⟩, hwf, hdf, hcf⟩ := hAll smax hmem
  have hm1 : processKnowledgeSource fsys Strategy.priority initMerged smax =
      { sourcesMeta := [metaOf smax],
        templates := [(normalizeKey rel, mkEntry cmax (metaOf smax))],
        workflows := [],
        dataEntries := [],
        configs := [],
        conflicts := [] } := by
    simp [processKnowledgeSource, hpres, hcmax, hwf, hdf, hcf, processStd,
      processData, stdItemStep, initMerged, mapGet, mapSet, mapHas]
  have hentry : mapGet [(normalizeKey rel, mkEntry cmax (metaOf smax))]
      (normalizeKey rel) = some (mkEntry cmax (metaOf smax)) := by
    rw [mapGet_cons]
    simp
  have hrest' : ∀ s ∈ rest, (fsys s.path).present = true ∧
      (∃ c, (fsys s.path).templates = [(rel, c)]) ∧
      (fsys s.path).workflows = [] ∧ (fsys s.path).dataFiles = [] ∧
      (fsys s.path).configs = [] ∧
      s.priority < (mkEntry cmax (metaOf smax)).priority := by
    intro s hs
    have hsrcs : s ∈ srcs := by
      have : s ∈ sortByPriorityDesc srcs := by
        rw [hsorteq]
        exact List.mem_cons_of_mem _ hs
      exact (sortByPriorityDesc_perm srcs).mem_iff.mp this
    obtain ⟨h1, h2, h3, h4, h5⟩ := hAll s hsrcs
    exact ⟨h1, h2, h3, h4, h5, hrest s hs⟩
  have hrun : mergeKnowledgeSources fsys Strategy.priority srcs =
      rest.foldl (processKnowledgeSource fsys Strategy.priority)
        (processKnowledgeSource fsys Strategy.priority initMerged smax) := by
    rw [mergeKnowledgeSources, hsorteq]
    rfl
  have hkf := keep_fold fsys rel rest
    { sourcesMeta := [metaOf smax],
      templates := [(normalizeKey rel, mkEntry cmax (metaOf smax))],
      workflows := [],
      dataEntries := [],
      configs := [],
      conflicts := [] } (mkEntry cmax (metaOf smax)) hentry hrest'
  have hlen : rest.length = srcs.length - 1 := by
    have := (sortByPriorityDesc_perm srcs).length_eq
    rw [hsorteq] at this
    simp at this
    omega
  refine ⟨?_, ?_, ?_⟩
  · rw [hrun, hm1]
    rw [hkf.1]
    exact hentry
  · rw [hrun, hm1, hkf.2.1]
    simpa using hlen
  · intro cf hcfm
    rw [hrun, hm1] at hcfm
    rcases hkf.2.2 cf hcfm with hin | hk
    · exact absurd hin (List.not_mem_nil cf)
    · exact hk

/-- C2 counterexample: merging source A (priority 5) and source B (priority
10), both defining key `k.md`, under the `priority` strategy yields B's
content for the key — but the single conflict record is resolved `keep`,
not `replace`: the merger processes B (highest priority) first, and the
incoming lower-priority A is kept out. -/
theorem priority_merge_replace_cex :
    (mergeKnowledgeSources fsysAB Strategy.priority [srcA, srcB]).templates.map
        (fun p => (p.1, p.2.source, p.2.priority)) =
      [("k.md", "B", (10 : Int))] ∧
    (mergeKnowledgeSources fsysAB Strategy.priority [srcA, srcB]).conflicts.map
        (fun cf => cf.resolution) = ["keep"] ∧
    ("keep" : String) ≠ "replace" :=
  ⟨by decide, by decide, by decide⟩

/-- Closed instance of `priority_merge_highest_wins`: three sources with
priorities 0, 1 and 999 each defining `templates/api.yaml` merge to the
priority-999 content with exactly two conflict records. -/
theorem priority_merge_highest_wins_witness :
    mapGet (mergeKnowledgeSources fsys3 Strategy.priority
        [src0, src1, src999]).templates (normalizeKey "templates/api.yaml") =
      some (mkEntry (Text.plain "C999") (metaOf src999)) ∧
    (mergeKnowledgeSources fsys3 Strategy.priority
        [src0, src1, src999]).conflicts.length = 2 := by
  have h := priority_merge_highest_wins fsys3 [src0, src1, src999]
    "templates/api.yaml" src999 (Text.plain "C999")
    (by
      intro s hs
      rcases List.mem_cons.mp hs with rfl | hs
      · exact ⟨rfl, ⟨Text.plain "C0", rfl⟩, rfl, rfl, rfl⟩
      rcases List.mem_cons.mp hs with rfl | hs
      · exact ⟨rfl, ⟨Text.plain "C1", rfl⟩, rfl, rfl, rfl⟩
      rcases List.mem_cons.mp hs with rfl | hs
      · exact ⟨rfl, ⟨Text.plain "C999", rfl⟩, rfl, rfl, rfl⟩
      · exact absurd hs (List.not_mem_nil s))
    (by decide) (by decide) (by decide) rfl
  exact ⟨h.1, h.2.1⟩

/-- C8 (amended): `resolveKnowledge` appends every existing local knowledge
directory to the candidate source list with priority 999 — but on a key
collision between a federated source and a local source of equal priority
it is the *federated* source's artifact that is retained: federated sources
precede local ones in the candidate list, the sort is stable, so the
federated source is processed first and the priority tie resolves to
`keep`.  Local knowledge wins only by strict priority, not ties. -/
theorem local_sources_priority999 (fsys : String → DirContents)
    (fedName : String) (cfg : RepoConfig) (ltype lpath rel : String)
    (cF cL : Text)
    (hp : cfg.priority = 999)
    (hF : fsys cfg.localCache = oneTemplateDir rel cF)
    (hL : fsys lpath = oneTemplateDir rel cL) :
    buildKnowledgeSources [(fedName, cfg)] [(ltype, lpath)]
        (fun p => (fsys p).present) =
      [⟨cfg.localCache, cfg.priority, "federated", some fedName⟩,
       ⟨lpath, 999, "local", none⟩] ∧
    mapGet (resolveMerged fsys Strategy.priority [(fedName, cfg)]
        [(ltype, lpath)]).templates (normalizeKey rel) =
      some (mkEntry cF ⟨fedName, 999⟩) ∧
    (∀ cf ∈ (resolveMerged fsys Strategy.priority [(fedName, cfg)]
        [(ltype, lpath)]).conflicts, cf.resolution = "keep") := by
  obtain ⟨rv, bv, cv, pv⟩ := cfg
  dsimp only at hp hF ⊢
  subst hp
  have hbuild : buildKnowledgeSources [(fedName, ⟨rv, bv, cv, 999⟩)]
      [(ltype, lpath)] (fun p => (fsys p).present) =
      [⟨cv, 999, "federated", some fedName⟩, ⟨lpath, 999, "local", none⟩] := by
    simp [buildKnowledgeSources, hL, oneTemplateDir]
  have hsorted : sortByPriorityDesc
      [⟨cv, 999, "federated", some fedName⟩, ⟨lpath, 999, "local", none⟩] =
      [⟨cv, 999, "federated", some fedName⟩, ⟨lpath, 999, "local", none⟩] := by
    simp [sortByPriorityDesc, insertDesc]
  have hm1 : processKnowledgeSource fsys Strategy.priority initMerged
      ⟨cv, 999, "federated", some fedName⟩ =
      { sourcesMeta := [⟨fedName, 999⟩],
        templates := [(normalizeKey rel, mkEntry cF ⟨fedName, 999⟩)],
        workflows := [],
        dataEntries := [],
        configs := [],
        conflicts := [] } := by
    simp [processKnowledgeSource, hF, oneTemplateDir, processStd, processData,
      stdItemStep, initMerged, mapGet, mapSet, mapHas, metaOf, srcName,
      mkEntry]
  have hm2 : processKnowledgeSource fsys Strategy.priority
      { sourcesMeta := [⟨fedName, 999⟩],
        templates := [(normalizeKey rel, mkEntry cF ⟨fedName, 999⟩)],
        workflows := [],
        dataEntries := [],
        configs := [],
        conflicts := [] } ⟨lpath, 999, "local", none⟩ =
      { sourcesMeta := [⟨fedName, 999⟩, ⟨"local", 999⟩],
        templates := [(normalizeKey rel, mkEntry cF ⟨fedName, 999⟩)],
        workflows := [],
        dataEntries := [],
        configs := [],
        conflicts := [handleConflict Strategy.priority "template"
          (normalizeKey rel) (mkEntry cF ⟨fedName, 999⟩) ⟨"local", 999⟩] } := by
    simp [processKnowledgeSource, hL, oneTemplateDir, processStd, processData,
      stdItemStep, metaOf, srcName, handleConflict, mapGet_cons, mkEntry]
  have hrun : resolveMerged fsys Strategy.priority [(fedName, ⟨rv, bv, cv, 999⟩)]
      [(ltype, lpath)] =
      { sourcesMeta := [⟨fedName, 999⟩, ⟨"local", 999⟩],
        templates := [(normalizeKey rel, mkEntry cF ⟨fedName, 999⟩)],
        workflows := [],
        dataEntries := [],
        configs := [],
        conflicts := [handleConflict Strategy.priority "template"
          (normalizeKey rel) (mkEntry cF ⟨fedName, 999⟩) ⟨"local", 999⟩] } := by
    rw [resolveMerged, hbuild, mergeKnowledgeSources, hsorted]
    rw [List.foldl_cons, List.foldl_cons, List.foldl_nil, hm1, hm2]
  refine ⟨hbuild, ?_, ?_⟩
  · rw [hrun]
    dsimp only
    rw [mapGet_cons]
    simp
  · intro cf hcf
    rw [hrun] at hcf
    dsimp only at hcf
    rcases List.mem_singleton.mp hcf with rfl
    simp [handleConflict, mkEntry]

/-- C8 counterexample: one federated source of priority 999 and one local
knowledge directory (priority 999), both defining `k.md`: after
`resolveKnowledge` the retained entry is the *federated* one, refuting
"the local source's artifact is the one retained" on an equal-priority
collision. -/
theorem local_wins_ties_cex :
    (resolveMerged fsysFL Strategy.priority [("fedsrc", fedCfg)]
        [("templates", "pl")]).templates.map (fun p => (p.1, p.2.source)) =
      [("k.md", "fedsrc")] ∧
    ("fedsrc" : String) ≠ "local" :=
  ⟨by decide, by decide⟩

/-- Closed instance of `local_sources_priority999`. -/
theorem local_sources_priority999_witness :
    buildKnowledgeSources [("fedsrc", fedCfg)] [("templates", "pl")]
        (fun p => (fsysFL p).present) =
      [⟨"pf", 999, "federated", some "fedsrc"⟩,
       ⟨"pl", 999, "local", none⟩] ∧
    mapGet (resolveMerged fsysFL Strategy.priority [("fedsrc", fedCfg)]
        [("templates", "pl")]).templates (normalizeKey "k.md") =
      some (mkEntry (Text.plain "F content") ⟨"fedsrc", 999⟩) := by
  have h := local_sources_priority999 fsysFL "fedsrc" fedCfg "templates" "pl"
    "k.md" (Text.plain "F content") (Text.plain "L content") rfl rfl rfl
  exact ⟨h.1, h.2.1⟩

/-! ## Key-tracking lemmas for the conflict-ledger invariant -/

theorem beq_comm_str (a b : String) : (a == b) = (b == a) := by
  by_cases h : a = b
  · simp [h]
  · rw [beq_eq_false_iff_ne.mpr h, beq_eq_false_iff_ne.mpr (Ne.symm h)]

theorem contains_mapKeys_eq_mapHas {α : Type} (m : List (String × α))
    (k : String) : (mapKeys m).contains k = mapHas m k := by
  induction m with
  | nil => rfl
  | cons p t ih =>
    simp only [mapKeys, List.map_cons, List.contains_cons, mapHas,
      List.any_cons] at ih ⊢
    rw [beq_comm_str k p.1, ih]

theorem mapGet_eq_none_iff {α : Type} (m : List (String × α)) (k : String) :
    mapGet m k = none ↔ mapHas m k = false := by
  induction m with
  | nil => simp [mapGet, mapHas]
  | cons p t ih =>
    rw [mapGet_cons]
    by_cases hb : (p.1 == k) = true
    · simp [hb, mapHas]
    · have hf : (p.1 == k) = false := by simpa using hb
      simp [hf, mapHas, List.any_cons, ih]

theorem mapKeys_map_update {α : Type} (k : String) (v : α)
    (m : List (String × α)) :
    mapKeys (m.map (fun p => if p.1 == k then (k, v) else p)) = mapKeys m := by
  induction m with
  | nil => rfl
  | cons p t ih =>
    by_cases hb : (p.1 == k) = true
    · have hpk : p.1 = k := by simpa using hb
      simp only [mapKeys, List.map_cons, hb, if_true] at ih ⊢
      rw [hpk]
      simpa [mapKeys] using ih
    · have hf : (p.1 == k) = false := by simpa using hb
      simp only [mapKeys, List.map_cons, hf, Bool.false_eq_true, if_false]
        at ih ⊢
      simpa [mapKeys] using ih

theorem mapKeys_mapSet_of_has {α : Type} (m : List (String × α)) (k : String)
    (v : α) (h : mapHas m k = true) : mapKeys (mapSet m k v) = mapKeys m := by
  rw [mapSet, if_pos h]
  exact mapKeys_map_update k v m

theorem mapKeys_mapSet_of_not_has {α : Type} (m : List (String × α))
    (k : String) (v : α) (h : mapHas m k = false) :
    mapKeys (mapSet m k v) = mapKeys m ++ [k] := by
  rw [mapSet_of_not_has m k v h]
  simp [mapKeys]

/-- One standard-category item changes the key set and the ledger length
exactly as the key-only `keyStep` mirror does, whatever the strategy and
resolution. -/
theorem stdItemStep_keys (strat : Strategy) (ctype : String)
    (src : SourceMeta) (mp : List (String × Entry))
    (cs : List ConflictRecord) (item : String × Text) :
    mapKeys (stdItemStep strat ctype src (mp, cs) item).1 =
      (keyStep (mapKeys mp, cs.length) item).1 ∧
    (stdItemStep strat ctype src (mp, cs) item).2.length =
      (keyStep (mapKeys mp, cs.length) item).2 := by
  cases hget : mapGet mp (normalizeKey item.1) with
  | none =>
    have hhas : mapHas mp (normalizeKey item.1) = false :=
      (mapGet_eq_none_iff mp (normalizeKey item.1)).mp hget
    have hmem : normalizeKey item.1 ∉ mapKeys mp := by
      intro hmm
      have hx := (mapHas_iff_mem mp (normalizeKey item.1)).mpr hmm
      rw [hhas] at hx
      exact Bool.noConfusion hx
    constructor
    · simp [stdItemStep, hget, keyStep, hmem,
        mapKeys_mapSet_of_not_has mp _ _ hhas]
    · simp [stdItemStep, hget, keyStep, hmem]
  | some e =>
    have hhas : mapHas mp (normalizeKey item.1) = true := by
      by_contra hc
      have hf : mapHas mp (normalizeKey item.1) = false := by simpa using hc
      have h0 := (mapGet_eq_none_iff mp (normalizeKey item.1)).mpr hf
      rw [hget] at h0
      exact Option.noConfusion h0
    have hmem : normalizeKey item.1 ∈ mapKeys mp :=
      (mapHas_iff_mem mp (normalizeKey item.1)).mp hhas
    constructor
    · by_cases hres : (handleConflict strat ctype (normalizeKey item.1) e
          src).resolution = "replace"
      · simp [stdItemStep, hget, hres, keyStep, hmem,
          mapKeys_mapSet_of_has mp _ _ hhas]
      · simp [stdItemStep, hget, hres, keyStep, hmem]
    · simp [stdItemStep, hget, keyStep, hmem]

/-- One `data` item likewise mirrors `keyStep`: the in-place update never
adds or removes a key. -/
theorem dataItemStep_keys (strat : Strategy) (src : SourceMeta)
    (mp : List (String × Entry)) (cs : List ConflictRecord)
    (item : String × Text) :
    mapKeys (dataItemStep strat src (mp, cs) item).1 =
      (keyStep (mapKeys mp, cs.length) item).1 ∧
    (dataItemStep strat src (mp, cs) item).2.length =
      (keyStep (mapKeys mp, cs.length) item).2 := by
  cases hget : mapGet mp (normalizeKey item.1) with
  | none =>
    have hhas : mapHas mp (normalizeKey item.1) = false :=
      (mapGet_eq_none_iff mp (normalizeKey item.1)).mp hget
    have hmem : normalizeKey item.1 ∉ mapKeys mp := by
      intro hmm
      have hx := (mapHas_iff_mem mp (normalizeKey item.1)).mpr hmm
      rw [hhas] at hx
      exact Bool.noConfusion hx
    constructor
    · simp [dataItemStep, hget, keyStep, hmem,
        mapKeys_mapSet_of_not_has mp _ _ hhas]
    · simp [dataItemStep, hget, keyStep, hmem]
  | some e =>
    have hhas : mapHas mp (normalizeKey item.1) = true := by
      by_contra hc
      have hf : mapHas mp (normalizeKey item.1) = false := by simpa using hc
      have h0 := (mapGet_eq_none_iff mp (normalizeKey item.1)).mpr hf
      rw [hget] at h0
      exact Option.noConfusion h0
    have hmem : normalizeKey item.1 ∈ mapKeys mp :=
      (mapHas_iff_mem mp (normalizeKey item.1)).mp hhas
    constructor
    · simp [dataItemStep, hget, keyStep, hmem,
        mapKeys_mapSet_of_has mp _ _ hhas]
    · simp [dataItemStep, hget, keyStep, hmem]

theorem processStd_keyfold (strat : Strategy) (ctype : String)
    (src : SourceMeta) :
    ∀ (items : List (String × Text)) (mp : List (String × Entry))
      (cs : List ConflictRecord),
      mapKeys (processStd strat ctype src items (mp, cs)).1 =
        (items.foldl keyStep (mapKeys mp, cs.length)).1 ∧
      (processStd strat ctype src items (mp, cs)).2.length =
        (items.foldl keyStep (mapKeys mp, cs.length)).2 := by
  intro items
  induction items with
  | nil => intro mp cs; exact ⟨rfl, rfl⟩
  | cons it rest ih =>
    intro mp cs
    have hi := stdItemStep_keys strat ctype src mp cs it
    have hpair : (mapKeys (stdItemStep strat ctype src (mp, cs) it).1,
        (stdItemStep strat ctype src (mp, cs) it).2.length) =
        keyStep (mapKeys mp, cs.length) it := by
      rw [hi.1, hi.2]
    have ihx := ih (stdItemStep strat ctype src (mp, cs) it).1
      (stdItemStep strat ctype src (mp, cs) it).2
    rw [Prod.mk.eta] at ihx
    rw [hpair] at ihx
    exact ihx

theorem processData_keyfold (strat : Strategy) (src : SourceMeta) :
    ∀ (items : List (String × Text)) (mp : List (String × Entry))
      (cs : List ConflictRecord),
      mapKeys (processData strat src items (mp, cs)).1 =
        (items.foldl keyStep (mapKeys mp, cs.length)).1 ∧
      (processData strat src items (mp, cs)).2.length =
        (items.foldl keyStep (mapKeys mp, cs.length)).2 := by
  intro items
  induction items with
  | nil => intro mp cs; exact ⟨rfl, rfl⟩
  | cons it rest ih =>
    intro mp cs
    have hi := dataItemStep_keys strat src mp cs it
    have hpair : (mapKeys (dataItemStep strat src (mp, cs) it).1,
        (dataItemStep strat src (mp, cs) it).2.length) =
        keyStep (mapKeys mp, cs.length) it := by
      rw [hi.1, hi.2]
    have ihx := ih (dataItemStep strat src (mp, cs) it).1
      (dataItemStep strat src (mp, cs) it).2
    rw [Prod.mk.eta] at ihx
    rw [hpair] at ihx
    exact ihx

/-- One processed source advances the per-category key sets and the ledger
length exactly like the key-only mirror `seenSource`. -/
theorem processSource_keyfold (fsys : String → DirContents) (strat : Strategy)
    (s : KSource) (m : Merged) (sk : SeenKeys)
    (ht : mapKeys m.templates = sk.t) (hw : mapKeys m.workflows = sk.w)
    (hd : mapKeys m.dataEntries = sk.d) (hc : mapKeys m.configs = sk.c)
    (hn : m.conflicts.length = sk.count) :
    mapKeys (processKnowledgeSource fsys strat m s).templates =
      (seenSource fsys sk s).t ∧
    mapKeys (processKnowledgeSource fsys strat m s).workflows =
      (seenSource fsys sk s).w ∧
    mapKeys (processKnowledgeSource fsys strat m s).dataEntries =
      (seenSource fsys sk s).d ∧
    mapKeys (processKnowledgeSource fsys strat m s).configs =
      (seenSource fsys sk s).c ∧
    (processKnowledgeSource fsys strat m s).conflicts.length =
      (seenSource fsys sk s).count := by
  by_cases hpres : (fsys s.path).present
  · have h1 := processStd_keyfold strat "template" (metaOf s)
      (fsys s.path).templates m.templates m.conflicts
    rw [ht, hn] at h1
    have h2 := processStd_keyfold strat "workflow" (metaOf s)
      (fsys s.path).workflows m.workflows
      (processStd strat "template" (metaOf s) (fsys s.path).templates
        (m.templates, m.conflicts)).2
    rw [hw, h1.2] at h2
    have h3 := processData_keyfold strat (metaOf s)
      (fsys s.path).dataFiles m.dataEntries
      (processStd strat "workflow" (metaOf s) (fsys s.path).workflows
        (m.workflows,
          (processStd strat "template" (metaOf s) (fsys s.path).templates
            (m.templates, m.conflicts)).2)).2
    rw [hd, h2.2] at h3
    have h4 := processStd_keyfold strat "config" (metaOf s)
      (fsys s.path).configs m.configs
      (processData strat (metaOf s) (fsys s.path).dataFiles
        (m.dataEntries,
          (processStd strat "workflow" (metaOf s) (fsys s.path).workflows
            (m.workflows,
              (processStd strat "template" (metaOf s) (fsys s.path).templates
                (m.templates, m.conflicts)).2)).2)).2
    rw [hc, h3.2] at h4
    simp only [processKnowledgeSource, seenSource, hpres, if_true]
    exact ⟨h1.1, h2.1, h3.1, h4.1, h4.2⟩
  · simp only [processKnowledgeSource, seenSource, hpres, Bool.false_eq_true,
      if_false]
    exact ⟨ht, hw, hd, hc, hn⟩

/-- C9: the number of conflict records a merge run writes equals the number
of key collisions it encounters — every collision, in every category and
under every strategy and resolution (`replace`, `keep`, `merged`,
`manual`), appends exactly one record to the ledger. -/
theorem conflicts_length_eq_collisions (fsys : String → DirContents)
    (strat : Strategy) (srcs : List KSource) :
    (mergeKnowledgeSources fsys strat srcs).conflicts.length =
      countCollisions fsys srcs := by
  have haux : ∀ (l : List KSource) (m : Merged) (sk : SeenKeys),
      mapKeys m.templates = sk.t → mapKeys m.workflows = sk.w →
      mapKeys m.dataEntries = sk.d → mapKeys m.configs = sk.c →
      m.conflicts.length = sk.count →
      (l.foldl (processKnowledgeSource fsys strat) m).conflicts.length =
        (l.foldl (seenSource fsys) sk).count := by
    intro l
    induction l with
    | nil => intro m sk _ _ _ _ hn; exact hn
    | cons s rest ih =>
      intro m sk ht hw hd hc hn
      have hs := processSource_keyfold fsys strat s m sk ht hw hd hc hn
      exact ih (processKnowledgeSource fsys strat m s) (seenSource fsys sk s)
        hs.1 hs.2.1 hs.2.2.1 hs.2.2.2.1 hs.2.2.2.2
  exact haux (sortByPriorityDesc srcs) initMerged ⟨[], [], [], [], 0⟩
    rfl rfl rfl rfl rfl

end BmadFed
